import Mathlib

/-!
Verification development for an 8x8 block-puzzle engine written in TypeScript.

The development shallowly embeds the core modules of the repository:
`bitboard.ts` (64-bit board as a `Nat` bit-set), `pieces.ts` (piece geometry
and precomputed placements), `game-logic.ts` (placement and line clearing),
`solver.ts` (DFS solver over piece orderings), and `state-tree.ts`
(persistent branching history).

Conventions of the embedding:
* JavaScript `bigint` board values are embedded as `Nat` (arbitrary
  precision, non-negative in every reachable state).
* `board & ~mask` on bigints is embedded as `board ^^^ (board &&& mask)`,
  which is extensionally the same function on non-negative bigints and is
  executable by the kernel.
* JavaScript bigint shifts by a possibly negative amount (`a << k` means
  `a >> -k` when `k < 0`) are embedded by `jsShiftLeft` / `jsShiftRight`.
* Functions that `throw` in the source are embedded with `Except String`;
  returning `Except.error` models the thrown exception, and the caller's
  tree/board value is untouched (all embedded values are immutable).
* The piece catalog is loaded from a JSON asset (`public/data/pieces.json`)
  that is external to the core sources; following the specification's
  interface boundary, every catalog-dependent definition takes the catalog
  as an explicit `List Piece` argument.
* Source loops whose termination is not structural (the `countBits` shift
  loop, the recursive permutation generator, the `deleteBranch` BFS queue)
  are embedded with an explicit fuel that provably suffices on the inputs
  the source can reach.
-/

namespace BlockPuzzle

/-! ## Bitboard (`bitboard.ts`) -/

def BOARD_SIZE : Nat := 8

def TOTAL_CELLS : Nat := 64

/-- Bit index of cell (x, y): `idx = y * 8 + x`. -/
def coordToIndex (x y : Nat) : Nat :=
  y * BOARD_SIZE + x

def isInBounds (x y : Int) : Bool :=
  0 ≤ x && x < (BOARD_SIZE : Int) && 0 ≤ y && y < (BOARD_SIZE : Int)

def getBit (board : Nat) (x y : Nat) : Bool :=
  board &&& (1 <<< coordToIndex x y) != 0

def setBit (board : Nat) (x y : Nat) : Nat :=
  board ||| (1 <<< coordToIndex x y)

def clearBitMaskless (board : Nat) (mask : Nat) : Nat :=
  board ^^^ (board &&& mask)

/-- JavaScript bigint left shift: a negative shift amount shifts right. -/
def jsShiftLeft (a : Nat) (k : Int) : Nat :=
  if 0 ≤ k then a <<< k.toNat else a >>> (-k).toNat

/-- JavaScript bigint right shift: a negative shift amount shifts left. -/
def jsShiftRight (a : Nat) (k : Int) : Nat :=
  if 0 ≤ k then a >>> k.toNat else a <<< (-k).toNat

/-- `toggleBit` from `bitboard.ts`, at a possibly out-of-range coordinate,
with JavaScript shift semantics for the (possibly negative) index. -/
def toggleBit (board : Nat) (x y : Int) : Nat :=
  board ^^^ jsShiftLeft 1 (y * (BOARD_SIZE : Int) + x)

/-- The eight precomputed full-row masks. -/
def ROW_MASKS : List Nat :=
  (List.range BOARD_SIZE).map (fun y =>
    (List.range BOARD_SIZE).foldl (fun mask x => mask ||| (1 <<< coordToIndex x y)) 0)

/-- The eight precomputed full-column masks. -/
def COL_MASKS : List Nat :=
  (List.range BOARD_SIZE).map (fun x =>
    (List.range BOARD_SIZE).foldl (fun mask y => mask ||| (1 <<< coordToIndex x y)) 0)

def isRowFilled (board : Nat) (y : Nat) : Bool :=
  board &&& ROW_MASKS.getD y 0 == ROW_MASKS.getD y 0

def isColFilled (board : Nat) (x : Nat) : Bool :=
  board &&& COL_MASKS.getD x 0 == COL_MASKS.getD x 0

def getFilledRows (board : Nat) : List Nat :=
  (List.range BOARD_SIZE).filter (fun y => isRowFilled board y)

def getFilledCols (board : Nat) : List Nat :=
  (List.range BOARD_SIZE).filter (fun x => isColFilled board x)

/-- `clearLines` from `bitboard.ts`: OR the masks of the given rows and
columns into a clear mask, then `board & ~clearMask`. -/
def clearLines (board : Nat) (rows cols : List Nat) : Nat :=
  clearBitMaskless board
    (cols.foldl (fun m x => m ||| COL_MASKS.getD x 0)
      (rows.foldl (fun m y => m ||| ROW_MASKS.getD y 0) 0))

/-- Auxiliary loop for `countBits`, with fuel: the source repeatedly adds
the low bit and shifts right until the value is zero. -/
def countBitsAux : Nat → Nat → Nat
  | 0, _ => 0
  | fuel + 1, b => if b = 0 then 0 else b % 2 + countBitsAux fuel (b / 2)

/-- `countBits` (popcount) from `bitboard.ts`; `b` itself is always enough
fuel because the value halves each iteration. -/
def countBits (board : Nat) : Nat :=
  countBitsAux board board

/-! ### Bit-counting infrastructure -/

theorem countBitsAux_fuel_irrel :
    ∀ f₁ f₂ b, b ≤ f₁ → b ≤ f₂ → countBitsAux f₁ b = countBitsAux f₂ b := by
  intro f₁
  induction f₁ using Nat.strong_induction_on with
  | _ f₁ ih =>
    intro f₂ b h₁ h₂
    match f₁, f₂ with
    | 0, f₂ =>
      interval_cases b
      cases f₂ <;> simp [countBitsAux]
    | f₁ + 1, 0 =>
      interval_cases b
      simp [countBitsAux]
    | f₁ + 1, f₂ + 1 =>
      by_cases hb : b = 0
      · simp [countBitsAux, hb]
      · have hdiv : b / 2 < b := Nat.div_lt_self (Nat.pos_of_ne_zero hb) (by omega)
        have h₁' : b / 2 ≤ f₁ := by omega
        have h₂' : b / 2 ≤ f₂ := by omega
        simp only [countBitsAux, hb, if_false]
        rw [ih f₁ (by omega) f₂ (b / 2) h₁' h₂']

theorem countBits_zero : countBits 0 = 0 := rfl

theorem countBits_rec (b : Nat) (hb : b ≠ 0) :
    countBits b = b % 2 + countBits (b / 2) := by
  unfold countBits
  have hdiv : b / 2 < b := Nat.div_lt_self (Nat.pos_of_ne_zero hb) (by omega)
  match hb' : b, hb with
  | b' + 1, _ =>
    simp only [countBitsAux, Nat.succ_ne_zero, if_false]
    congr 1
    exact countBitsAux_fuel_irrel b' ((b' + 1) / 2) ((b' + 1) / 2) (by omega) (Nat.le_refl _)

/-- `countBits` is the sum of the binary digits below any sufficient bound. -/
theorem countBits_eq_sum :
    ∀ k b, b < 2 ^ k →
      countBits b = ∑ i ∈ Finset.range k, (if b.testBit i then 1 else 0) := by
  intro k
  induction k with
  | zero =>
    intro b hb
    interval_cases b
    simp [countBits_zero]
  | succ k ih =>
    intro b hb
    by_cases hzero : b = 0
    · subst hzero
      rw [countBits_zero]
      rw [Finset.sum_eq_zero]
      intro i _
      simp [Nat.zero_testBit]
    · rw [countBits_rec b hzero]
      have hdiv : b / 2 < 2 ^ k := by
        have : b < 2 ^ k * 2 := by
          rw [Nat.pow_succ] at hb
          omega
        omega
      rw [ih (b / 2) hdiv]
      rw [Finset.sum_range_succ']
      have hbit0 : (if b.testBit 0 then 1 else 0) = b % 2 := by
        rcases Nat.mod_two_eq_zero_or_one b with h | h <;>
          simp [Nat.testBit_zero, h, Nat.mod_two_eq_one_iff_testBit_zero]
      have hstep : ∀ i, b.testBit (i + 1) = (b / 2).testBit i := by
        intro i
        rw [Nat.testBit_add_one]
      simp only [hstep, hbit0]
      omega

/-- Counting bits is monotone under bitwise inclusion (below a shared bound). -/
theorem countBits_mono (k a b : Nat) (ha : a < 2 ^ k) (hb : b < 2 ^ k)
    (h : ∀ i, a.testBit i = true → b.testBit i = true) :
    countBits a ≤ countBits b := by
  rw [countBits_eq_sum k a ha, countBits_eq_sum k b hb]
  apply Finset.sum_le_sum
  intro i _
  by_cases hai : a.testBit i
  · simp [hai, h i hai]
  · simp [hai]

theorem testBit_clearBitMaskless (a mask i : Nat) :
    (clearBitMaskless a mask).testBit i = (a.testBit i && !mask.testBit i) := by
  unfold clearBitMaskless
  rw [Nat.testBit_xor, Nat.testBit_and]
  cases a.testBit i <;> cases mask.testBit i <;> rfl

theorem clearBitMaskless_lt_two_pow {a : Nat} (mask : Nat) {k : Nat} (ha : a < 2 ^ k) :
    clearBitMaskless a mask < 2 ^ k := by
  apply Nat.lt_pow_two_of_testBit
  intro i hi
  rw [testBit_clearBitMaskless]
  have : a < 2 ^ i := lt_of_lt_of_le ha (Nat.pow_le_pow_right (by omega) hi)
  simp [Nat.testBit_lt_two_pow this]

/-! ## Piece catalog and placement geometry (`pieces.ts`) -/

/-- One catalog entry of `pieces.json`: id, bounding-box width/height, the
occupied-cell offsets relative to the top-left, and the canonical hash. -/
structure Piece where
  id : Nat
  w : Nat
  h : Nat
  cells : List (Nat × Nat)
  hash : String
deriving DecidableEq

/-- A precomputed candidate placement: anchor and occupancy mask. -/
structure Placement where
  x : Nat
  y : Nat
  mask : Nat
deriving DecidableEq

/-- `PIECES.get(id)`: the catalog map keyed by id (ids are unique). -/
def getPiece (catalog : List Piece) (id : Nat) : Option Piece :=
  catalog.find? (fun p => p.id == id)

/-- Inner loop of `pieceMaskAt`: OR each cell's bit into the mask, returning
the sentinel `0` if a cell falls out of bounds (unreachable for catalog
pieces whose cells stay inside the bounding box). -/
def pieceMaskAtGo (px py : Int) : List (Nat × Nat) → Nat → Nat
  | [], mask => mask
  | (dx, dy) :: rest, mask =>
    let x : Int := px + dx
    let y : Int := py + dy
    if isInBounds x y then pieceMaskAtGo px py rest (setBit mask x.toNat y.toNat)
    else 0

/-- `pieceMaskAt(piece, px, py)`: the occupancy mask of `piece` anchored at
(px, py), or the sentinel `0` if the bounding box leaves the board. -/
def pieceMaskAt (piece : Piece) (px py : Int) : Nat :=
  if px < 0 ∨ py < 0 ∨ px + piece.w > (BOARD_SIZE : Int) ∨ py + piece.h > (BOARD_SIZE : Int) then 0
  else pieceMaskAtGo px py piece.cells 0

/-- All in-bounds placements of one piece, in row-major anchor order
(`py` outer, `px` inner), as built by `precomputeAllPlacements`. -/
def piecePlacements (piece : Piece) : List Placement :=
  (List.range (BOARD_SIZE + 1 - piece.h)).flatMap (fun py =>
    (List.range (BOARD_SIZE + 1 - piece.w)).filterMap (fun px =>
      let mask := pieceMaskAt piece (Int.ofNat px) (Int.ofNat py)
      if mask ≠ 0 then some ⟨px, py, mask⟩ else none))

/-- `PRECOMPUTED_PLACEMENTS.get(pieceId)` (with the solver's fallback to an
empty list for an unknown id). -/
def PRECOMPUTED_PLACEMENTS (catalog : List Piece) (pieceId : Nat) : List Placement :=
  match getPiece catalog pieceId with
  | some piece => piecePlacements piece
  | none => []

/-! ## Placement engine (`game-logic.ts`) -/

structure PlacementResult where
  newBoard : Nat
  boardBeforeClear : Nat
  clearedRows : List Nat
  clearedCols : List Nat
  cellsCleared : Nat
deriving DecidableEq

/-- `placePiece(board, pieceMask)`: OR the mask in, find filled rows and
columns, clear them, and report the cleared cell count by
inclusion-exclusion. -/
def placePiece (board pieceMask : Nat) : PlacementResult :=
  let boardBeforeClear := board ||| pieceMask
  let clearedRows := getFilledRows boardBeforeClear
  let clearedCols := getFilledCols boardBeforeClear
  let newBoard := clearLines boardBeforeClear clearedRows clearedCols
  let cellsCleared :=
    if clearedRows.length > 0 ∨ clearedCols.length > 0 then
      clearedRows.length * BOARD_SIZE + clearedCols.length * BOARD_SIZE -
        clearedRows.length * clearedCols.length
    else 0
  ⟨newBoard, boardBeforeClear, clearedRows, clearedCols, cellsCleared⟩

/-- `computeMobility(board)`: total number of non-overlapping precomputed
placements across the whole catalog. -/
def computeMobility (catalog : List Piece) (board : Nat) : Nat :=
  catalog.foldl (fun total piece =>
    total + ((piecePlacements piece).filter (fun p => board &&& p.mask == 0)).length) 0

/-! ## Solver (`solver.ts`) -/

structure SolutionStep where
  pieceId : Nat
  handIndex : Nat
  x : Nat
  y : Nat
  clearedRows : List Nat
  clearedCols : List Nat
  boardAfter : Nat
deriving DecidableEq

/-- A complete solver answer.  The `order` entries are `Option` because in
`findAllSolutions` the source computes `order.map(i => hand[handIndices[i]])`
with `i` a piece id, which indexes past the end of both arrays and yields
JavaScript `undefined`; `undefined` is embedded as `none`. -/
structure Solution where
  steps : List SolutionStep
  finalBoard : Nat
  mobility : Nat
  order : List (Option Nat)
deriving DecidableEq

/-- Body of the recursive generator `permutations`, with fuel: for each
index `i`, prepend `arr[i]` to each permutation of the rest
(`arr.slice(0, i) ++ arr.slice(i + 1)`). -/
def permutationsAux : Nat → List Nat → List (List Nat)
  | _, [] => [[]]
  | _, [a] => [[a]]
  | 0, _ => []
  | fuel + 1, arr =>
    (List.range arr.length).flatMap (fun i =>
      (permutationsAux fuel (arr.take i ++ arr.drop (i + 1))).map
        (fun perm => arr.getD i 0 :: perm))

/-- `permutations(arr)`; fuel `arr.length` always suffices because each
recursive call drops one element. -/
def permutations (arr : List Nat) : List (List Nat) :=
  permutationsAux arr.length arr

/-- `getLegalPlacements` as used inside the solver: filter the precomputed
placements by overlap with the live board. -/
def getLegalPlacements (catalog : List Piece) (board : Nat) (pieceId : Nat) : List Placement :=
  (PRECOMPUTED_PLACEMENTS catalog pieceId).filter (fun p => board &&& p.mask == 0)

/-- The step record that both DFS variants build for one placement. -/
def mkStep (pieceId handIndex : Nat) (p : Placement) (result : PlacementResult) : SolutionStep :=
  ⟨pieceId, handIndex, p.x, p.y, result.clearedRows, result.clearedCols, result.newBoard⟩

/-- `dfs` from `solver.ts`.  The remaining `(pieceId, handIndex)` pairs
stand for `order[depth..]` zipped with `handIndices[depth..]`; the loop over
placements that returns the first non-null recursive result is
`List.findSome?`.  The unused `earlyExit` flag of the source is threaded
through unchanged. -/
def dfs (catalog : List Piece) :
    List (Nat × Nat) → Nat → List SolutionStep → Bool → Option (List SolutionStep)
  | [], _, path, _ => some path
  | (pieceId, handIndex) :: rest, board, path, earlyExit =>
    (getLegalPlacements catalog board pieceId).findSome? (fun p =>
      let result := placePiece board p.mask
      dfs catalog rest result.newBoard (path ++ [mkStep pieceId handIndex p result]) earlyExit)

/-- The solution record pushed by `dfsAll` when all pieces are placed; note
the out-of-range `order` computation of the source (see `Solution.order`). -/
def mkAllSolution (catalog : List Piece) (hand orderFull handIndices : List Nat)
    (path : List SolutionStep) : Solution :=
  let finalBoard := ((path.getLast?).map (fun s => s.boardAfter)).getD 0
  ⟨path, finalBoard, computeMobility catalog finalBoard,
    orderFull.map (fun i => (handIndices.get? i).bind (fun j => hand.get? j))⟩

/-- `dfsAll` inside `findAllSolutions`: depth-first enumeration that pushes
complete solutions onto the accumulator until the cap is reached.  The
placement loop with its per-iteration cap check is a `foldl`. -/
def dfsAll (catalog : List Piece) (maxSolutions : Nat) (hand orderFull handIndices : List Nat) :
    List (Nat × Nat) → Nat → List SolutionStep → List Solution → List Solution
  | remaining, board, path, solutions =>
    if solutions.length ≥ maxSolutions then solutions
    else
      match remaining with
      | [] => solutions ++ [mkAllSolution catalog hand orderFull handIndices path]
      | (pieceId, handIndex) :: rest =>
        (getLegalPlacements catalog board pieceId).foldl (fun sols p =>
          if sols.length ≥ maxSolutions then sols
          else
            let result := placePiece board p.mask
            dfsAll catalog maxSolutions hand orderFull handIndices rest result.newBoard
              (path ++ [mkStep pieceId handIndex p result]) sols) solutions

/-- `solveTriple(board, hand)`: throws unless the hand has exactly 3
pieces, then returns the first complete sequence over the 6 index
permutations, or `null`. -/
def solveTriple (catalog : List Piece) (board : Nat) (hand : List Nat) :
    Except String (Option Solution) :=
  if hand.length ≠ 3 then .error "Hand must contain exactly 3 pieces"
  else
    .ok ((permutations [0, 1, 2]).findSome? (fun order =>
      let pieceOrder := order.map (fun i => hand.getD i 0)
      match dfs catalog (pieceOrder.zip order) board [] true with
      | some steps =>
        let finalBoard := ((steps.getLast?).map (fun s => s.boardAfter)).getD 0
        some ⟨steps, finalBoard, computeMobility catalog finalBoard, pieceOrder.map some⟩
      | none => none))

/-- `findAllSolutions(board, hand, maxSolutions)`: collect up to the cap
over all 6 index permutations (the `break` on a full collection is the
per-iteration cap check). -/
def findAllSolutions (catalog : List Piece) (board : Nat) (hand : List Nat)
    (maxSolutions : Nat) : Except String (List Solution) :=
  if hand.length ≠ 3 then .error "Hand must contain exactly 3 pieces"
  else
    .ok ((permutations [0, 1, 2]).foldl (fun solutions orderIndices =>
      if solutions.length ≥ maxSolutions then solutions
      else
        let pieceOrder := orderIndices.map (fun i => hand.getD i 0)
        dfsAll catalog maxSolutions hand pieceOrder orderIndices
          (pieceOrder.zip orderIndices) board [] solutions) [])

/-- The ES2019-stable descending sort `solutions.sort((a, b) => b.mobility -
a.mobility)`, embedded as a stable insertion sort: an element is inserted
before the first element whose mobility is not larger. -/
def sortByMobilityDesc (solutions : List Solution) : List Solution :=
  solutions.insertionSort (fun a b => b.mobility ≤ a.mobility)

/-- `findBestSolution(board, hand, maxSolutions)`: sort the collected
solutions by mobility (descending, stable) and return the first, or `null`
when none were collected. -/
def findBestSolution (catalog : List Piece) (board : Nat) (hand : List Nat)
    (maxSolutions : Nat) : Except String (Option Solution) :=
  match findAllSolutions catalog board hand maxSolutions with
  | .error e => .error e
  | .ok solutions =>
    if solutions.length = 0 then .ok none
    else .ok (sortByMobilityDesc solutions).head?

/-- `solvePartial(board, remainingPieces, handIndices)`: first-fit search
over permutations of a 0-3 piece hand; never throws. -/
def solvePartial (catalog : List Piece) (board : Nat)
    (remainingPieces handIndices : List Nat) : Except String (Option Solution) :=
  if remainingPieces.length = 0 then
    .ok (some ⟨[], board, computeMobility catalog board, []⟩)
  else
    .ok ((permutations (List.range remainingPieces.length)).findSome? (fun order =>
      let pieceOrder := order.map (fun i => remainingPieces.getD i 0)
      let mappedIndices := order.map (fun i => handIndices.getD i 0)
      match dfs catalog (pieceOrder.zip mappedIndices) board [] true with
      | some steps =>
        let finalBoard :=
          if steps.length > 0 then ((steps.getLast?).map (fun s => s.boardAfter)).getD 0
          else board
        some ⟨steps, finalBoard, computeMobility catalog finalBoard, pieceOrder.map some⟩
      | none => none))

/-! ## Specification-side solver definitions

These definitions follow the specification's words, not the source; the
refinement theorems below compare the source embedding against them. -/

/-- Modelled from the spec: a list of pieces admits a complete legal
placement sequence from a board when each piece in turn has a legal
placement whose application lets the rest complete. -/
def completable (catalog : List Piece) : Nat → List Nat → Bool
  | _, [] => true
  | board, pieceId :: rest =>
    (getLegalPlacements catalog board pieceId).any (fun p =>
      completable catalog (placePiece board p.mask).newBoard rest)

/-- Modelled from the spec: the uncapped enumeration of all complete
solutions of one piece order, in the anchor scan order of the placement
table (depth-first). -/
def solEnum (catalog : List Piece) (hand orderFull handIndices : List Nat) :
    List (Nat × Nat) → Nat → List SolutionStep → List Solution
  | [], _, path => [mkAllSolution catalog hand orderFull handIndices path]
  | (pieceId, handIndex) :: rest, board, path =>
    (getLegalPlacements catalog board pieceId).flatMap (fun p =>
      let result := placePiece board p.mask
      solEnum catalog hand orderFull handIndices rest result.newBoard
        (path ++ [mkStep pieceId handIndex p result]))

/-- Modelled from the spec: the uncapped solution stream across all 6
orderings, in ordering-then-anchor enumeration order. -/
def specSolutions (catalog : List Piece) (board : Nat) (hand : List Nat) : List Solution :=
  (permutations [0, 1, 2]).flatMap (fun orderIndices =>
    let pieceOrder := orderIndices.map (fun i => hand.getD i 0)
    solEnum catalog hand pieceOrder orderIndices (pieceOrder.zip orderIndices) board [])

/-- Modelled from the spec: the first solution of maximum mobility
(earlier elements win ties). -/
def firstMax : List Solution → Option Solution
  | [] => none
  | a :: l =>
    match firstMax l with
    | none => some a
    | some b => if b.mobility ≤ a.mobility then some a else some b

/-! ## State tree (`state-tree.ts`)

Node ids are `Nat`.  `generateNodeId()` and `Date.now()` are external
sources of fresh ids and timestamps; each mutator takes them as explicit
arguments, with freshness as a hypothesis where a theorem needs it (the
source guarantees ids are never reused). -/

inductive Move where
  | place (pieceId : Nat) (handIndex : Int) (x y : Int)
      (clearedRows clearedCols : List Nat) : Move
  | editCell (x y : Int) (wasOccupied : Bool) : Move
  | setHand (previousHand newHand : List Nat) : Move
deriving DecidableEq

structure GameNode where
  id : Nat
  parentId : Option Nat
  childrenIds : List Nat
  board : Nat
  hand : List Nat
  handUsed : List Bool
  lastMove : Option Move
  createdAt : Nat
  note : Option String
deriving DecidableEq

/-- The node map, with JavaScript `Map` semantics (insertion order kept,
`set` of an existing key replaces in place). -/
abbrev NodeMap : Type := List (Nat × GameNode)

def mapGet (m : NodeMap) (k : Nat) : Option GameNode :=
  (m.find? (fun e => e.1 == k)).map (fun e => e.2)

def mapSet (m : NodeMap) (k : Nat) (v : GameNode) : NodeMap :=
  if m.any (fun e => e.1 == k) then
    m.map (fun e => if e.1 == k then (k, v) else e)
  else m ++ [(k, v)]

def mapDelete (m : NodeMap) (k : Nat) : NodeMap :=
  m.filter (fun e => e.1 != k)

def mapSize (m : NodeMap) : Nat :=
  m.length

structure StateTree where
  nodes : NodeMap
  currentNodeId : Nat
  rootNodeId : Nat
deriving DecidableEq

/-- `createInitialTree(board, hand)`, with the generated root id and
timestamp passed in. -/
def createInitialTree (rootId now : Nat) (board : Nat) (hand : List Nat) : StateTree :=
  let rootNode : GameNode :=
    ⟨rootId, none, [], board, hand, hand.map (fun _ => false), none, now, none⟩
  ⟨mapSet [] rootId rootNode, rootId, rootId⟩

/-- `getCurrentNode(tree)`; throws when the current id is dangling. -/
def getCurrentNode (tree : StateTree) : Except String GameNode :=
  match mapGet tree.nodes tree.currentNodeId with
  | some node => .ok node
  | none => .error "Current node not found"

/-- `applyPlaceMove(tree, pieceId, handIndex, x, y)` with its validation
chain; any violation throws, producing no new tree. -/
def applyPlaceMove (catalog : List Piece) (newId now : Nat) (tree : StateTree)
    (pieceId : Nat) (handIndex : Int) (x y : Int) : Except String StateTree :=
  match getCurrentNode tree with
  | .error e => .error e
  | .ok currentNode =>
    if handIndex < 0 ∨ (currentNode.hand.length : Int) ≤ handIndex then
      .error "Invalid hand index"
    else if currentNode.handUsed.getD handIndex.toNat false then
      .error "Piece at hand index already used"
    else if currentNode.hand.getD handIndex.toNat 0 ≠ pieceId then
      .error "Piece ID mismatch"
    else
      match getPiece catalog pieceId with
      | none => .error "Unknown piece ID"
      | some piece =>
        let mask := pieceMaskAt piece x y
        if mask = 0 then .error "Cannot place piece here"
        else if currentNode.board &&& mask ≠ 0 then .error "Overlap"
        else
          let result := placePiece currentNode.board mask
          let newHandUsed := currentNode.handUsed.set handIndex.toNat true
          let move := Move.place pieceId handIndex x y result.clearedRows result.clearedCols
          let newNode : GameNode :=
            ⟨newId, some currentNode.id, [], result.newBoard, currentNode.hand,
              newHandUsed, some move, now, none⟩
          let updatedParent : GameNode :=
            { currentNode with childrenIds := currentNode.childrenIds ++ [newId] }
          let newNodes := mapSet (mapSet tree.nodes currentNode.id updatedParent) newId newNode
          .ok { tree with nodes := newNodes, currentNodeId := newId }

/-- `applyEditCellMove(tree, x, y)`: unconditionally toggles one bit (no
coordinate validation) and appends a new node. -/
def applyEditCellMove (newId now : Nat) (tree : StateTree) (x y : Int) :
    Except String StateTree :=
  match getCurrentNode tree with
  | .error e => .error e
  | .ok currentNode =>
    let idx : Int := y * (BOARD_SIZE : Int) + x
    let wasOccupied := jsShiftRight currentNode.board idx &&& 1 == 1
    let newBoard := toggleBit currentNode.board x y
    let move := Move.editCell x y wasOccupied
    let newNode : GameNode :=
      ⟨newId, some currentNode.id, [], newBoard, currentNode.hand,
        currentNode.handUsed, some move, now, none⟩
    let updatedParent : GameNode :=
      { currentNode with childrenIds := currentNode.childrenIds ++ [newId] }
    let newNodes := mapSet (mapSet tree.nodes currentNode.id updatedParent) newId newNode
    .ok { tree with nodes := newNodes, currentNodeId := newId }

/-- `checkout(tree, nodeId)`: only moves the current pointer; throws on an
unknown id. -/
def checkout (tree : StateTree) (nodeId : Nat) : Except String StateTree :=
  if (mapGet tree.nodes nodeId).isSome then .ok { tree with currentNodeId := nodeId }
  else .error "Node not found"

/-- `undo(tree)`: checkout the parent; no-op at the root. -/
def undo (tree : StateTree) : Except String StateTree :=
  match getCurrentNode tree with
  | .error e => .error e
  | .ok currentNode =>
    match currentNode.parentId with
    | none => .ok tree
    | some parentId => checkout tree parentId

/-- `redo(tree)`: checkout the most recently created child; no-op at a
leaf. -/
def redo (tree : StateTree) : Except String StateTree :=
  match getCurrentNode tree with
  | .error e => .error e
  | .ok currentNode =>
    match currentNode.childrenIds.getLast? with
    | none => .ok tree
    | some lastChildId => checkout tree lastChildId

/-- The descendant-collecting BFS of `deleteBranch`, with fuel: pop an id,
add it to the collected list, and push its children. -/
def collectDescendants (nodes : NodeMap) : Nat → List Nat → List Nat → List Nat
  | 0, _, acc => acc
  | _ + 1, [], acc => acc
  | fuel + 1, id :: queue, acc =>
    let acc' := if id ∈ acc then acc else acc ++ [id]
    match mapGet nodes id with
    | some node => collectDescendants nodes fuel (queue ++ node.childrenIds) acc'
    | none => collectDescendants nodes fuel queue acc'

/-- Fuel that suffices for the BFS on any acyclic node map: one step per
queued id, and ids are queued at most once per child reference. -/
def deleteFuel (nodes : NodeMap) : Nat :=
  1 + nodes.length + (nodes.map (fun e => e.2.childrenIds.length)).sum

/-- `deleteBranch(tree, nodeId)`: refuses the root and the current node;
otherwise removes the node and all collected descendants and drops the id
from its parent's child list. -/
def deleteBranch (tree : StateTree) (nodeId : Nat) : Except String StateTree :=
  if nodeId = tree.rootNodeId then .error "Cannot delete root node"
  else if nodeId = tree.currentNodeId then .error "Cannot delete current node"
  else
    match mapGet tree.nodes nodeId with
    | none => .ok tree
    | some nodeToDelete =>
      let toDelete := collectDescendants tree.nodes (deleteFuel tree.nodes) [nodeId] []
      let newNodes := toDelete.foldl (fun m id => mapDelete m id) tree.nodes
      let newNodes2 :=
        match nodeToDelete.parentId with
        | some parentId =>
          match mapGet newNodes parentId with
          | some parent =>
            mapSet newNodes parentId
              { parent with childrenIds := parent.childrenIds.filter (fun id => id ≠ nodeId) }
          | none => newNodes
        | none => newNodes
      .ok { tree with nodes := newNodes2 }

/-- `countNodes(tree)`. -/
def countNodes (tree : StateTree) : Nat :=
  mapSize tree.nodes

/-! ## Lemmas about the node map -/

theorem mapGet_cons_ne (a : Nat × GameNode) (t : NodeMap) (k : Nat) (h : a.1 ≠ k) :
    mapGet (a :: t) k = mapGet t k := by
  simp [mapGet, List.find?_cons, h]

theorem mapGet_cons_eq (a : Nat × GameNode) (t : NodeMap) (k : Nat) (h : a.1 = k) :
    mapGet (a :: t) k = some a.2 := by
  simp [mapGet, List.find?_cons, h]

theorem mapSet_cons_ne (a : Nat × GameNode) (t : NodeMap) (k : Nat) (v : GameNode)
    (h : a.1 ≠ k) : mapSet (a :: t) k v = a :: mapSet t k v := by
  unfold mapSet
  by_cases ht : t.any (fun e => e.1 == k) <;> simp [ht, h]

theorem mapGet_mapSet_self (m : NodeMap) (k : Nat) (v : GameNode) :
    mapGet (mapSet m k v) k = some v := by
  induction m with
  | nil => simp [mapSet, mapGet]
  | cons a t ih =>
    by_cases h : a.1 = k
    · unfold mapSet
      simp only [List.any_cons, beq_iff_eq, h, List.map_cons]
      rw [if_pos (by simp), if_pos (by simp [h])]
      exact mapGet_cons_eq _ _ _ rfl
    · rw [mapSet_cons_ne a t k v h, mapGet_cons_ne a _ k h, ih]

theorem mapGet_map_replace_ne (t : NodeMap) (k k' : Nat) (v : GameNode) (h : k' ≠ k) :
    mapGet (t.map (fun e => if e.1 == k then (k, v) else e)) k' = mapGet t k' := by
  induction t with
  | nil => rfl
  | cons b t ih =>
    by_cases hb : b.1 = k
    · rw [List.map_cons, if_pos (by simp [hb])]
      rw [mapGet_cons_ne _ _ _ (fun hc => h hc.symm),
        mapGet_cons_ne b t k' (fun hc => h (hb ▸ hc).symm)]
      exact ih
    · rw [List.map_cons, if_neg (by simp [hb])]
      by_cases hb' : b.1 = k'
      · rw [mapGet_cons_eq _ _ _ hb', mapGet_cons_eq b t k' hb']
      · rw [mapGet_cons_ne _ _ _ hb', mapGet_cons_ne b t k' hb']
        exact ih

theorem mapGet_mapSet_ne (m : NodeMap) (k k' : Nat) (v : GameNode) (h : k' ≠ k) :
    mapGet (mapSet m k v) k' = mapGet m k' := by
  induction m with
  | nil =>
    show mapGet (mapSet [] k v) k' = none
    simp only [mapSet, List.any_nil, Bool.false_eq_true, if_false, List.nil_append]
    exact mapGet_cons_ne _ _ _ (fun hc => h hc.symm)
  | cons a t ih =>
    by_cases ha : a.1 = k
    · unfold mapSet
      rw [if_pos (by simp [ha])]
      exact mapGet_map_replace_ne (a :: t) k k' v h
    · rw [mapSet_cons_ne a t k v ha]
      by_cases ha' : a.1 = k'
      · rw [mapGet_cons_eq _ _ _ ha', mapGet_cons_eq a t k' ha']
      · rw [mapGet_cons_ne _ _ _ ha', mapGet_cons_ne a t k' ha', ih]

theorem mapGet_none_any_false (m : NodeMap) (k : Nat) (h : mapGet m k = none) :
    m.any (fun e => e.1 == k) = false := by
  induction m with
  | nil => rfl
  | cons a t ih =>
    by_cases ha : a.1 = k
    · rw [mapGet_cons_eq a t k ha] at h
      exact absurd h (by simp)
    · rw [mapGet_cons_ne a t k ha] at h
      simp [ha, ih h]

theorem mapGet_some_any_true (m : NodeMap) (k : Nat) (v : GameNode)
    (h : mapGet m k = some v) : m.any (fun e => e.1 == k) = true := by
  induction m with
  | nil => exact Option.noConfusion h
  | cons a t ih =>
    by_cases ha : a.1 = k
    · simp [ha]
    · rw [mapGet_cons_ne a t k ha] at h
      simp [ha, ih h]

theorem mapSize_mapSet_mem (m : NodeMap) (k : Nat) (v v' : GameNode)
    (h : mapGet m k = some v') : mapSize (mapSet m k v) = mapSize m := by
  unfold mapSet mapSize
  rw [if_pos (mapGet_some_any_true m k v' h)]
  exact List.length_map _ _

theorem mapSize_mapSet_fresh (m : NodeMap) (k : Nat) (v : GameNode)
    (h : mapGet m k = none) : mapSize (mapSet m k v) = mapSize m + 1 := by
  unfold mapSet mapSize
  rw [if_neg (by rw [mapGet_none_any_false m k h]; exact Bool.false_ne_true)]
  simp

/-! ## C2: line-clear accounting of `placePiece` -/

/-- C2: for every board and mask, `placePiece` reports `cellsCleared` by
inclusion-exclusion (`8 * rows + 8 * cols - rows * cols`), and on the
concrete board whose row 0 is full except column 7, placing a single-cell
piece at (7, 0) clears exactly row 0, reports 8 cells cleared, and leaves
row 0 fully empty in the resulting board. -/
theorem placePiece_cellsCleared_spec :
    (∀ board mask, (placePiece board mask).cellsCleared =
      (placePiece board mask).clearedRows.length * 8 +
        (placePiece board mask).clearedCols.length * 8 -
        (placePiece board mask).clearedRows.length *
          (placePiece board mask).clearedCols.length)
    ∧ (placePiece 127 (pieceMaskAt ⟨1, 1, 1, [(0, 0)], "c"⟩ 7 0)).clearedRows = [0]
    ∧ (placePiece 127 (pieceMaskAt ⟨1, 1, 1, [(0, 0)], "c"⟩ 7 0)).cellsCleared = 8
    ∧ (placePiece 127 (pieceMaskAt ⟨1, 1, 1, [(0, 0)], "c"⟩ 7 0)).newBoard &&&
        ROW_MASKS.getD 0 0 = 0 := by
  refine ⟨fun board mask => ?_, by decide, by decide, by decide⟩
  show (placePiece board mask).cellsCleared = _
  simp only [placePiece, BOARD_SIZE]
  split
  · rfl
  · next hcond =>
    push_neg at hcond
    rw [List.length_eq_zero.mp (by omega : (getFilledRows (board ||| mask)).length = 0),
      List.length_eq_zero.mp (by omega : (getFilledCols (board ||| mask)).length = 0)]
    rfl

/-! ## C5: the cleared board stays in range and never gains cells -/

/-- C5: for boards and masks confined to bit indices 0..63, the board after
clearing has no bit outside 0..63 and its popcount is at most that of
`board ||| mask`. -/
theorem placePiece_newBoard_bounds (board mask : Nat)
    (hb : board < 2 ^ 64) (hm : mask < 2 ^ 64) :
    (placePiece board mask).newBoard < 2 ^ 64 ∧
      countBits (placePiece board mask).newBoard ≤ countBits (board ||| mask) := by
  have hor : board ||| mask < 2 ^ 64 := Nat.or_lt_two_pow hb hm
  have hnew : (placePiece board mask).newBoard =
      clearBitMaskless (board ||| mask)
        ((getFilledCols (board ||| mask)).foldl (fun m x => m ||| COL_MASKS.getD x 0)
          ((getFilledRows (board ||| mask)).foldl (fun m y => m ||| ROW_MASKS.getD y 0) 0)) := by
    simp [placePiece, clearLines]
  rw [hnew]
  refine ⟨clearBitMaskless_lt_two_pow _ hor, ?_⟩
  apply countBits_mono 64 _ _ (clearBitMaskless_lt_two_pow _ hor) hor
  intro i hi
  rw [testBit_clearBitMaskless] at hi
  exact (Bool.and_eq_true _ _ |>.mp hi).1

/-- Witness for C5 at the concrete scenario-B board and mask. -/
theorem placePiece_newBoard_bounds_witness :
    (127 : Nat) < 2 ^ 64 ∧ (128 : Nat) < 2 ^ 64 ∧
      ((placePiece 127 128).newBoard < 2 ^ 64 ∧
        countBits (placePiece 127 128).newBoard ≤ countBits (127 ||| 128)) :=
  ⟨by norm_num, by norm_num, placePiece_newBoard_bounds 127 128 (by norm_num) (by norm_num)⟩

/-! ## C6: bit count and range of `pieceMaskAt` -/

/-- A well-formed catalog piece: distinct occupied-cell offsets lying in a
tight `w` by `h` bounding box (some cell touches column 0 and some cell
touches row 0). -/
def WellFormedPiece (p : Piece) : Prop :=
  p.cells.Nodup ∧ (∀ c ∈ p.cells, c.1 < p.w ∧ c.2 < p.h) ∧
    (∃ c ∈ p.cells, c.1 = 0) ∧ (∃ c ∈ p.cells, c.2 = 0)

instance (p : Piece) : Decidable (WellFormedPiece p) := by
  unfold WellFormedPiece
  infer_instance

/-- The board index that `pieceMaskAtGo` sets for one cell offset. -/
def cellIndex (px py : Int) (c : Nat × Nat) : Nat :=
  coordToIndex (px + c.1).toNat (py + c.2).toNat

theorem testBit_setBit (board : Nat) (x y i : Nat) :
    (setBit board x y).testBit i = (board.testBit i || decide (coordToIndex x y = i)) := by
  unfold setBit
  rw [Nat.testBit_lor, Nat.shiftLeft_eq, one_mul, Nat.testBit_two_pow]

theorem pieceMaskAtGo_testBit (px py : Int) :
    ∀ (cells : List (Nat × Nat)) (acc i : Nat),
      (∀ c ∈ cells, isInBounds (px + c.1) (py + c.2) = true) →
      (pieceMaskAtGo px py cells acc).testBit i =
        (acc.testBit i || decide (i ∈ cells.map (cellIndex px py))) := by
  intro cells
  induction cells with
  | nil => intro acc i _; simp [pieceMaskAtGo]
  | cons c rest ih =>
    intro acc i hin
    obtain ⟨dx, dy⟩ := c
    have hc : isInBounds (px + (dx : Int)) (py + (dy : Int)) = true :=
      hin (dx, dy) (List.mem_cons_self _ _)
    show (pieceMaskAtGo px py ((dx, dy) :: rest) acc).testBit i = _
    simp only [pieceMaskAtGo]
    rw [if_pos hc]
    rw [ih _ i (fun c hc' => hin c (List.mem_cons_of_mem _ hc'))]
    rw [testBit_setBit]
    simp only [List.map_cons, List.mem_cons, cellIndex]
    by_cases h2 : coordToIndex (px + (dx : Int)).toNat (py + (dy : Int)).toNat = i <;>
      by_cases h3 : i ∈ rest.map (cellIndex px py) <;>
        simp [h2, h3, Ne.symm, cellIndex, Bool.or_assoc]

theorem cellIndex_lt (px py : Int) (c : Nat × Nat)
    (h : isInBounds (px + c.1) (py + c.2) = true) : cellIndex px py c < 64 := by
  simp only [isInBounds, BOARD_SIZE, Bool.and_eq_true, decide_eq_true_eq] at h
  simp only [cellIndex, coordToIndex, BOARD_SIZE]
  omega

theorem pieceMaskAtGo_lt_two_pow (px py : Int) (cells : List (Nat × Nat)) (acc : Nat)
    (hin : ∀ c ∈ cells, isInBounds (px + c.1) (py + c.2) = true) (hacc : acc < 2 ^ 64) :
    pieceMaskAtGo px py cells acc < 2 ^ 64 := by
  apply Nat.lt_pow_two_of_testBit
  intro i hi
  rw [pieceMaskAtGo_testBit px py cells acc i hin]
  have h1 : acc.testBit i = false :=
    Nat.testBit_lt_two_pow (lt_of_lt_of_le hacc (Nat.pow_le_pow_right (by omega) hi))
  have h2 : i ∉ cells.map (cellIndex px py) := by
    intro hmem
    obtain ⟨c, hc, hidx⟩ := List.mem_map.mp hmem
    have := cellIndex_lt px py c (hin c hc)
    omega
  simp [h1, h2]

theorem countBits_mem_list (l : List Nat) (hlt : ∀ i ∈ l, i < 64) (hnd : l.Nodup)
    (board : Nat) (hb : board < 2 ^ 64)
    (hbits : ∀ i, board.testBit i = decide (i ∈ l)) :
    countBits board = l.length := by
  rw [countBits_eq_sum 64 board hb]
  have : ∀ i ∈ Finset.range 64,
      (if board.testBit i then 1 else 0) = if i ∈ l then 1 else 0 := by
    intro i _
    rw [hbits i]
    by_cases h : i ∈ l <;> simp [h]
  rw [Finset.sum_congr rfl this, Finset.sum_boole]
  have hfilter : (Finset.range 64).filter (fun i => i ∈ l) = l.toFinset := by
    apply Finset.ext
    intro i
    simp only [Finset.mem_filter, Finset.mem_range, List.mem_toFinset]
    exact ⟨fun h => h.2, fun h => ⟨hlt i h, h⟩⟩
  rw [hfilter, List.toFinset_card_of_nodup hnd]
  simp

/-- C6: for a well-formed piece, an anchor whose bounding box stays inside
the 8x8 board yields a mask with exactly one bit per cell, all within
indices 0..63; an anchor whose bounding box leaves the board yields the
sentinel empty mask 0. -/
theorem pieceMaskAt_spec (p : Piece) (x y : Int) (hwf : WellFormedPiece p) :
    (¬(x < 0 ∨ y < 0 ∨ x + p.w > (BOARD_SIZE : Int) ∨ y + p.h > (BOARD_SIZE : Int)) →
      countBits (pieceMaskAt p x y) = p.cells.length ∧ pieceMaskAt p x y < 2 ^ 64)
    ∧ ((x < 0 ∨ y < 0 ∨ x + p.w > (BOARD_SIZE : Int) ∨ y + p.h > (BOARD_SIZE : Int)) →
      pieceMaskAt p x y = 0) := by
  constructor
  · intro hbox
    push_neg at hbox
    obtain ⟨hx0, hy0, hxw, hyh⟩ := hbox
    have hin : ∀ c ∈ p.cells, isInBounds (x + c.1) (y + c.2) = true := by
      intro c hc
      have hcw := (hwf.2.1 c hc).1
      have hch := (hwf.2.1 c hc).2
      simp only [isInBounds, BOARD_SIZE, Bool.and_eq_true, decide_eq_true_eq]
      simp only [BOARD_SIZE] at hxw hyh
      omega
    have hmask : pieceMaskAt p x y = pieceMaskAtGo x y p.cells 0 := by
      unfold pieceMaskAt
      rw [if_neg]
      push_neg
      exact ⟨hx0, hy0, hxw, hyh⟩
    rw [hmask]
    constructor
    · rw [show p.cells.length = (p.cells.map (cellIndex x y)).length from
        (List.length_map _ _).symm]
      apply countBits_mem_list (p.cells.map (cellIndex x y))
      · intro i hi
        obtain ⟨c, hc, hidx⟩ := List.mem_map.mp hi
        exact hidx ▸ cellIndex_lt x y c (hin c hc)
      · apply List.Nodup.map_on _ hwf.1
        intro c hc c' hc' heq
        have h1 := hin c hc
        have h2 := hin c' hc'
        simp only [isInBounds, BOARD_SIZE, Bool.and_eq_true, decide_eq_true_eq] at h1 h2
        simp only [cellIndex, coordToIndex, BOARD_SIZE] at heq
        obtain ⟨dx, dy⟩ := c
        obtain ⟨dx', dy'⟩ := c'
        simp only at h1 h2 heq
        have : dx = dx' ∧ dy = dy' := by omega
        simp [this.1, this.2]
      · exact pieceMaskAtGo_lt_two_pow x y p.cells 0 hin (by norm_num)
      · intro i
        rw [pieceMaskAtGo_testBit x y p.cells 0 i hin]
        simp [Nat.zero_testBit]
    · exact pieceMaskAtGo_lt_two_pow x y p.cells 0 hin (by norm_num)
  · intro hbox
    unfold pieceMaskAt
    rw [if_pos hbox]

/-- Witness for C6 on a concrete well-formed L-piece: an in-bounds anchor
yields a 3-bit in-range mask, an out-of-bounds anchor yields 0. -/
theorem pieceMaskAt_spec_witness :
    WellFormedPiece ⟨7, 2, 2, [(0, 0), (0, 1), (1, 1)], "w"⟩ ∧
      (countBits (pieceMaskAt ⟨7, 2, 2, [(0, 0), (0, 1), (1, 1)], "w"⟩ 3 4) = 3 ∧
        pieceMaskAt ⟨7, 2, 2, [(0, 0), (0, 1), (1, 1)], "w"⟩ 3 4 < 2 ^ 64) ∧
      pieceMaskAt ⟨7, 2, 2, [(0, 0), (0, 1), (1, 1)], "w"⟩ 7 4 = 0 := by
  refine ⟨by decide, ?_, ?_⟩
  · exact (pieceMaskAt_spec ⟨7, 2, 2, [(0, 0), (0, 1), (1, 1)], "w"⟩ 3 4 (by decide)).1
      (by decide)
  · exact (pieceMaskAt_spec ⟨7, 2, 2, [(0, 0), (0, 1), (1, 1)], "w"⟩ 7 4 (by decide)).2
      (by decide)

/-! ## C9: `applyEditCellMove` validates nothing -/

/-- C9: `applyEditCellMove` performs no coordinate validation: whenever the
tree has a current node, it succeeds for every integer pair (x, y), appends
exactly one new child of the current node, moves current to it, and the new
node's board is the parent's board XOR `1 << (y*8 + x)` (with JavaScript
bigint shift semantics).  In particular at (x, y) = (0, 8) the new board
gains bit 64, outside the documented 0..63 board range (see the witness). -/
theorem applyEditCellMove_spec (newId now : Nat) (tree : StateTree) (x y : Int)
    (node : GameNode) (hc : mapGet tree.nodes tree.currentNodeId = some node)
    (hid : node.id = tree.currentNodeId)
    (hfresh : mapGet tree.nodes newId = none) :
    (applyEditCellMove newId now tree x y).map (fun t => t.currentNodeId) = .ok newId
    ∧ (applyEditCellMove newId now tree x y).map
        (fun t => (mapGet t.nodes newId).map (fun n => n.board)) =
      .ok (some (node.board ^^^ jsShiftLeft 1 (y * (BOARD_SIZE : Int) + x)))
    ∧ (applyEditCellMove newId now tree x y).map
        (fun t => (mapGet t.nodes newId).map (fun n => n.parentId)) =
      .ok (some (some tree.currentNodeId))
    ∧ (applyEditCellMove newId now tree x y).map
        (fun t => (mapGet t.nodes tree.currentNodeId).map (fun n => n.childrenIds)) =
      .ok (some (node.childrenIds ++ [newId]))
    ∧ (applyEditCellMove newId now tree x y).map (fun t => mapSize t.nodes) =
      .ok (mapSize tree.nodes + 1) := by
  have hne : tree.currentNodeId ≠ newId := by
    intro h
    rw [h, hfresh] at hc
    exact Option.noConfusion hc
  have hne' : node.id ≠ newId := hid ▸ hne
  have happ : applyEditCellMove newId now tree x y =
      .ok { tree with
        nodes := mapSet (mapSet tree.nodes node.id
          { node with childrenIds := node.childrenIds ++ [newId] }) newId
          ⟨newId, some node.id, [], toggleBit node.board x y, node.hand, node.handUsed,
            some (.editCell x y
              (jsShiftRight node.board (y * (BOARD_SIZE : Int) + x) &&& 1 == 1)),
            now, none⟩,
        currentNodeId := newId } := by
    simp [applyEditCellMove, getCurrentNode, hc]
  refine ⟨?_, ?_, ?_, ?_, ?_⟩ <;> rw [happ]
  · rfl
  · simp only [Except.map, mapGet_mapSet_self]
    rfl
  · simp only [Except.map, mapGet_mapSet_self, hid]
    rfl
  · simp only [Except.map]
    rw [← hid, mapGet_mapSet_ne _ _ _ _ hne', mapGet_mapSet_self]
    rfl
  · simp only [Except.map]
    rw [mapSize_mapSet_fresh _ _ _ (by rw [mapGet_mapSet_ne _ _ _ _ (Ne.symm hne'), hfresh]),
      mapSize_mapSet_mem _ _ _ node (hid ▸ hc)]

/-- Witness for C9, at the out-of-range coordinate (x, y) = (0, 8) from an
empty board: the move succeeds and the created node's board is `2 ^ 64`,
whose bit 64 is set, violating the 0..63 board invariant. -/
theorem applyEditCellMove_spec_witness :
    mapGet (createInitialTree 0 0 0 []).nodes (createInitialTree 0 0 0 []).currentNodeId =
      some ⟨0, none, [], 0, [], [], none, 0, none⟩
    ∧ mapGet (createInitialTree 0 0 0 []).nodes 1 = none
    ∧ (applyEditCellMove 1 2 (createInitialTree 0 0 0 []) 0 8).map
        (fun t => (mapGet t.nodes 1).map (fun n => n.board)) =
      .ok (some ((0 : Nat) ^^^ jsShiftLeft 1 ((8 : Int) * (BOARD_SIZE : Int) + 0)))
    ∧ ((0 : Nat) ^^^ jsShiftLeft 1 ((8 : Int) * (BOARD_SIZE : Int) + 0)).testBit 64 = true := by
  refine ⟨rfl, rfl, ?_, by decide⟩
  exact (applyEditCellMove_spec 1 2 (createInitialTree 0 0 0 []) 0 8
    ⟨0, none, [], 0, [], [], none, 0, none⟩ rfl rfl rfl).2.1

/-! ## C1: the validation chain of `applyPlaceMove` -/

/-- The validations of `applyPlaceMove`, as one boolean: hand index in
range, slot unused, slot's piece id matches, the piece exists in the
catalog and its mask at (x, y) is non-empty, and the mask does not overlap
the current board. -/
def placeChecksPass (catalog : List Piece) (node : GameNode) (pieceId : Nat)
    (handIndex : Int) (x y : Int) : Bool :=
  decide (0 ≤ handIndex) && decide (handIndex < (node.hand.length : Int)) &&
    !(node.handUsed.getD handIndex.toNat false) &&
    (node.hand.getD handIndex.toNat 0 == pieceId) &&
    (match getPiece catalog pieceId with
     | some piece =>
       (pieceMaskAt piece x y != 0) && (node.board &&& pieceMaskAt piece x y == 0)
     | none => false)

/-- C1: whenever any `applyPlaceMove` validation fails, the whole operation
fails with an invalid-move error and produces no tree: the embedding
returns `Except.error`, so the caller's tree value is untouched (no node
created, no child list modified, current pointer unchanged). -/
theorem applyPlaceMove_invalid (catalog : List Piece) (newId now : Nat) (tree : StateTree)
    (pieceId : Nat) (handIndex x y : Int) (node : GameNode)
    (hc : mapGet tree.nodes tree.currentNodeId = some node)
    (hfail : placeChecksPass catalog node pieceId handIndex x y = false) :
    (applyPlaceMove catalog newId now tree pieceId handIndex x y).toOption = none := by
  simp only [applyPlaceMove, getCurrentNode, hc]
  split
  · rfl
  · next h1 =>
    split
    · rfl
    · next h2 =>
      split
      · rfl
      · next h3 =>
        split
        · rfl
        · next piece hp =>
          split
          · rfl
          · next h4 =>
            split
            · rfl
            · next h5 =>
              exfalso
              push_neg at h1 h3 h5
              have hb2 : node.handUsed.getD handIndex.toNat false = false := by
                revert h2
                cases node.handUsed.getD handIndex.toNat false <;> simp
              have hpass : placeChecksPass catalog node pieceId handIndex x y = true := by
                simp [placeChecksPass, hp, h1.1, h1.2, hb2, h3, h4, h5]
                constructor
                · simpa using hb2
                · have hlt : handIndex.toNat < node.hand.length := by
                    have ha := h1.1
                    have hb := h1.2
                    omega
                  have h3' := h3
                  simp only [List.getD_eq_getElem?_getD, List.getElem?_eq_getElem hlt,
                    Option.getD_some] at h3'
                  exact h3'
              rw [hpass] at hfail
              exact Bool.noConfusion hfail

/-- Witness for C1: a hand index beyond the 3-slot hand is rejected. -/
theorem applyPlaceMove_invalid_witness :
    mapGet (createInitialTree 0 5 0 [1, 1, 1]).nodes
        (createInitialTree 0 5 0 [1, 1, 1]).currentNodeId =
      some ⟨0, none, [], 0, [1, 1, 1], [false, false, false], none, 5, none⟩
    ∧ placeChecksPass [⟨1, 1, 1, [(0, 0)], "c"⟩]
        ⟨0, none, [], 0, [1, 1, 1], [false, false, false], none, 5, none⟩ 1 5 0 0 = false
    ∧ (applyPlaceMove [⟨1, 1, 1, [(0, 0)], "c"⟩] 9 6 (createInitialTree 0 5 0 [1, 1, 1])
        1 5 0 0).toOption = none := by
  refine ⟨rfl, by decide, ?_⟩
  exact applyPlaceMove_invalid [⟨1, 1, 1, [(0, 0)], "c"⟩] 9 6
    (createInitialTree 0 5 0 [1, 1, 1]) 1 5 0 0
    ⟨0, none, [], 0, [1, 1, 1], [false, false, false], none, 5, none⟩ rfl (by decide)

/-! ## C7: undo then redo returns to a freshly placed node -/

/-- C7: immediately after an accepted place move (so the new node is the
most recently appended child of its parent and no other branch has been
created since), `undo` followed by `redo` returns the exact same tree:
same current node id, hence the same board, hand and handUsed. -/
theorem applyPlaceMove_undo_redo (catalog : List Piece) (newId now : Nat) (tree : StateTree)
    (pieceId : Nat) (handIndex x y : Int) (node : GameNode) (tree' : StateTree)
    (hc : mapGet tree.nodes tree.currentNodeId = some node)
    (hid : node.id = tree.currentNodeId)
    (hfresh : mapGet tree.nodes newId = none)
    (happ : applyPlaceMove catalog newId now tree pieceId handIndex x y = .ok tree') :
    (undo tree').bind redo = Except.ok tree' := by
  have hne : tree.currentNodeId ≠ newId := by
    intro h
    rw [h, hfresh] at hc
    exact Option.noConfusion hc
  have hne' : node.id ≠ newId := hid ▸ hne
  simp only [applyPlaceMove, getCurrentNode, hc] at happ
  split at happ
  · exact Except.noConfusion happ
  · split at happ
    · exact Except.noConfusion happ
    · split at happ
      · exact Except.noConfusion happ
      · split at happ
        · exact Except.noConfusion happ
        · next piece _ =>
          split at happ
          · exact Except.noConfusion happ
          · split at happ
            · exact Except.noConfusion happ
            · have htree' := (Except.ok.inj happ).symm
              subst htree'
              have hget_new : ∀ k v, mapGet (mapSet (mapSet tree.nodes node.id v) newId k) newId
                  = some k := fun k v => mapGet_mapSet_self _ _ _
              have hget_par : ∀ k v, mapGet (mapSet (mapSet tree.nodes node.id v) newId k) node.id
                  = some v := fun k v => by
                rw [mapGet_mapSet_ne _ _ _ _ hne', mapGet_mapSet_self]
              unfold undo getCurrentNode
              simp only [hget_new]
              unfold checkout
              simp only [hget_par, Option.isSome_some, if_true, Except.bind]
              unfold redo getCurrentNode
              simp only [hget_par, List.getLast?_concat]
              unfold checkout
              simp only [hget_new, Option.isSome_some, if_true]

/-- Witness for C7: place the single-cell piece on an empty board and check
the undo-redo round trip on the resulting tree. -/
theorem applyPlaceMove_undo_redo_witness :
    mapGet (createInitialTree 0 5 0 [1, 1, 1]).nodes
        (createInitialTree 0 5 0 [1, 1, 1]).currentNodeId =
      some ⟨0, none, [], 0, [1, 1, 1], [false, false, false], none, 5, none⟩
    ∧ mapGet (createInitialTree 0 5 0 [1, 1, 1]).nodes 9 = none
    ∧ applyPlaceMove [⟨1, 1, 1, [(0, 0)], "c"⟩] 9 6 (createInitialTree 0 5 0 [1, 1, 1])
        1 0 0 0 =
      .ok (((applyPlaceMove [⟨1, 1, 1, [(0, 0)], "c"⟩] 9 6 (createInitialTree 0 5 0 [1, 1, 1])
        1 0 0 0).toOption).getD (createInitialTree 0 5 0 [1, 1, 1]))
    ∧ (undo (((applyPlaceMove [⟨1, 1, 1, [(0, 0)], "c"⟩] 9 6 (createInitialTree 0 5 0 [1, 1, 1])
        1 0 0 0).toOption).getD (createInitialTree 0 5 0 [1, 1, 1]))).bind redo =
      Except.ok (((applyPlaceMove [⟨1, 1, 1, [(0, 0)], "c"⟩] 9 6
        (createInitialTree 0 5 0 [1, 1, 1]) 1 0 0 0).toOption).getD
          (createInitialTree 0 5 0 [1, 1, 1])) := by
  refine ⟨rfl, rfl, rfl, ?_⟩
  exact applyPlaceMove_undo_redo [⟨1, 1, 1, [(0, 0)], "c"⟩] 9 6
    (createInitialTree 0 5 0 [1, 1, 1]) 1 0 0 0
    ⟨0, none, [], 0, [1, 1, 1], [false, false, false], none, 5, none⟩ _ rfl rfl rfl rfl

/-! ## C8: `deleteBranch` guards

The guard only compares `nodeId` itself against the root and current ids;
a strict ancestor of the current node passes the guard and its descendant
sweep then removes the current node (see the counterexample below). -/

theorem mapGet_mem (m : NodeMap) (k : Nat) (v : GameNode) (h : mapGet m k = some v) :
    ∃ e ∈ m, e.2 = v := by
  unfold mapGet at h
  cases hf : m.find? (fun e => e.1 == k) with
  | none => rw [hf] at h; exact Option.noConfusion h
  | some e =>
    rw [hf] at h
    exact ⟨e, List.mem_of_find?_eq_some hf, by simpa using h⟩

theorem collectDescendants_sound (nodes : NodeMap) :
    ∀ (fuel : Nat) (queue acc : List Nat) (z : Nat),
      z ∈ collectDescendants nodes fuel queue acc →
      z ∈ acc ∨ z ∈ queue ∨ ∃ e ∈ nodes, z ∈ e.2.childrenIds := by
  intro fuel
  induction fuel with
  | zero => intro queue acc z hz; exact Or.inl hz
  | succ fuel ih =>
    intro queue acc z hz
    match queue with
    | [] => exact Or.inl hz
    | id :: queue' =>
      have hacc : ∀ w, w ∈ (if id ∈ acc then acc else acc ++ [id]) →
          w ∈ acc ∨ w ∈ id :: queue' := by
        intro w hw
        by_cases hmem : id ∈ acc
        · rw [if_pos hmem] at hw
          exact Or.inl hw
        · rw [if_neg hmem] at hw
          rcases List.mem_append.mp hw with h' | h'
          · exact Or.inl h'
          · simp only [List.mem_singleton] at h'
            exact Or.inr (h' ▸ List.mem_cons_self _ _)
      cases hload : mapGet nodes id with
      | some node =>
        simp only [collectDescendants, hload] at hz
        rcases ih _ _ z hz with h | h | h
        · rcases hacc z h with h' | h'
          · exact Or.inl h'
          · exact Or.inr (Or.inl h')
        · rcases List.mem_append.mp h with h' | h'
          · exact Or.inr (Or.inl (List.mem_cons_of_mem _ h'))
          · obtain ⟨e, he, he2⟩ := mapGet_mem nodes id node hload
            exact Or.inr (Or.inr ⟨e, he, he2 ▸ h'⟩)
        · exact Or.inr (Or.inr h)
      | none =>
        simp only [collectDescendants, hload] at hz
        rcases ih _ _ z hz with h | h | h
        · rcases hacc z h with h' | h'
          · exact Or.inl h'
          · exact Or.inr (Or.inl h')
        · exact Or.inr (Or.inl (List.mem_cons_of_mem _ h))
        · exact Or.inr (Or.inr h)

theorem mapGet_mapDelete_ne (m : NodeMap) (k k' : Nat) (h : k' ≠ k) :
    mapGet (mapDelete m k) k' = mapGet m k' := by
  unfold mapDelete
  induction m with
  | nil => rfl
  | cons a t ih =>
    by_cases ha : a.1 = k
    · rw [List.filter_cons_of_neg (by simp [ha])]
      rw [mapGet_cons_ne a t k' (fun hc => h (ha ▸ hc).symm)]
      exact ih
    · rw [List.filter_cons_of_pos (by simp [ha])]
      by_cases ha' : a.1 = k'
      · rw [mapGet_cons_eq _ _ _ ha', mapGet_cons_eq a t k' ha']
      · rw [mapGet_cons_ne _ _ _ ha', mapGet_cons_ne a t k' ha']
        exact ih

theorem mapGet_foldl_delete (ids : List Nat) :
    ∀ (m : NodeMap) (k : Nat), k ∉ ids →
      mapGet (ids.foldl (fun m id => mapDelete m id) m) k = mapGet m k := by
  induction ids with
  | nil => intro m k _; rfl
  | cons i t ih =>
    intro m k hk
    rw [List.foldl_cons, ih _ _ (fun hc => hk (List.mem_cons_of_mem _ hc)),
      mapGet_mapDelete_ne _ _ _ (fun hc => hk (by rw [hc]; exact List.mem_cons_self _ _))]

/-- The node map produced by a successful `deleteBranch` (used only to
state its unfolding as one equation). -/
def deleteBranchNodes (tree : StateTree) (nodeId : Nat) (nodeToDelete : GameNode) : NodeMap :=
  match nodeToDelete.parentId with
  | some parentId =>
    match mapGet ((collectDescendants tree.nodes (deleteFuel tree.nodes) [nodeId] []).foldl
        (fun m id => mapDelete m id) tree.nodes) parentId with
    | some parent =>
      mapSet ((collectDescendants tree.nodes (deleteFuel tree.nodes) [nodeId] []).foldl
          (fun m id => mapDelete m id) tree.nodes) parentId
        { parent with childrenIds := parent.childrenIds.filter (fun id => id ≠ nodeId) }
    | none =>
      (collectDescendants tree.nodes (deleteFuel tree.nodes) [nodeId] []).foldl
        (fun m id => mapDelete m id) tree.nodes
  | none =>
    (collectDescendants tree.nodes (deleteFuel tree.nodes) [nodeId] []).foldl
      (fun m id => mapDelete m id) tree.nodes

/-- C8 (amended): `deleteBranch` on the root id or the current id fails
with an error (the tree value is untouched), and the root node is never
removed from a tree in which no node lists the root as a child; the
current node, however, is removed whenever the deleted node is a strict
ancestor of it (see `deleteBranch_removes_current_cex`). -/
theorem deleteBranch_guards (tree : StateTree) (nodeId : Nat)
    (hroot : ∀ e ∈ tree.nodes, tree.rootNodeId ∉ e.2.childrenIds)
    (hpresent : (mapGet tree.nodes tree.rootNodeId).isSome = true) :
    (deleteBranch tree tree.rootNodeId).toOption = none
    ∧ (deleteBranch tree tree.currentNodeId).toOption = none
    ∧ (deleteBranch tree nodeId).map (fun t => (mapGet t.nodes tree.rootNodeId).isSome) ≠
        Except.ok false := by
  refine ⟨?_, ?_, ?_⟩
  · unfold deleteBranch
    rw [if_pos rfl]
    rfl
  · by_cases hcr : tree.currentNodeId = tree.rootNodeId
    · unfold deleteBranch
      rw [if_pos hcr]
      rfl
    · unfold deleteBranch
      rw [if_neg hcr, if_pos rfl]
      rfl
  · by_cases h1 : nodeId = tree.rootNodeId
    · unfold deleteBranch
      rw [if_pos h1]
      exact fun hc => Except.noConfusion hc
    · by_cases h2 : nodeId = tree.currentNodeId
      · unfold deleteBranch
        rw [if_neg h1, if_pos h2]
        exact fun hc => Except.noConfusion hc
      · cases hfind : mapGet tree.nodes nodeId with
        | none =>
          have hres : deleteBranch tree nodeId = .ok tree := by
            unfold deleteBranch
            rw [if_neg h1, if_neg h2, hfind]
          rw [hres]
          simp only [Except.map, hpresent]
          exact fun hc => by simpa using Except.ok.inj hc
        | some nodeToDelete =>
          have hres : deleteBranch tree nodeId =
              .ok { tree with nodes := deleteBranchNodes tree nodeId nodeToDelete } := by
            unfold deleteBranch deleteBranchNodes
            rw [if_neg h1, if_neg h2, hfind]
          have hnotdel : tree.rootNodeId ∉
              collectDescendants tree.nodes (deleteFuel tree.nodes) [nodeId] [] := by
            intro hmem
            rcases collectDescendants_sound tree.nodes _ _ _ _ hmem with h | h | h
            · exact absurd h (List.not_mem_nil _)
            · simp only [List.mem_singleton] at h
              exact h1 h.symm
            · obtain ⟨e, he, hche⟩ := h
              exact hroot e he hche
          have hkeep : mapGet
              ((collectDescendants tree.nodes (deleteFuel tree.nodes) [nodeId] []).foldl
                (fun m id => mapDelete m id) tree.nodes) tree.rootNodeId =
              mapGet tree.nodes tree.rootNodeId :=
            mapGet_foldl_delete _ _ _ hnotdel
          have hiso : (mapGet (deleteBranchNodes tree nodeId nodeToDelete)
              tree.rootNodeId).isSome = true := by
            unfold deleteBranchNodes
            cases hpar : nodeToDelete.parentId with
            | none =>
              dsimp only
              rw [hkeep]
              exact hpresent
            | some parentId =>
              dsimp only
              cases hparget : mapGet
                  ((collectDescendants tree.nodes (deleteFuel tree.nodes) [nodeId] []).foldl
                    (fun m id => mapDelete m id) tree.nodes) parentId with
              | none =>
                simp only [hparget]
                rw [hkeep]
                exact hpresent
              | some parent =>
                simp only [hparget]
                by_cases hpr : parentId = tree.rootNodeId
                · rw [← hpr, mapGet_mapSet_self]
                  rfl
                · rw [mapGet_mapSet_ne _ _ _ _ (fun hc => hpr hc.symm), hkeep]
                  exact hpresent
          rw [hres]
          simp only [Except.map]
          intro hc
          have := Except.ok.inj hc
          rw [hiso] at this
          exact Bool.noConfusion this

/-- The three-node chain used to refute the original C8 claim: root 0 with
child 1, node 1 with child 2, current node 2. -/
def cexTree : StateTree :=
  ⟨[(0, ⟨0, none, [1], 0, [], [], none, 0, none⟩),
    (1, ⟨1, some 0, [2], 0, [], [], none, 0, none⟩),
    (2, ⟨2, some 1, [], 0, [], [], none, 0, none⟩)], 2, 0⟩

/-- Counterexample to C8 as stated: deleting node 1 (neither the root nor
the current node, but an ancestor of current) succeeds and removes the
currently checked-out node 2 from the node set. -/
theorem deleteBranch_removes_current_cex :
    deleteBranch cexTree 1 = .ok ((deleteBranch cexTree 1).toOption.getD cexTree)
    ∧ ((deleteBranch cexTree 1).toOption.getD cexTree).currentNodeId = 2
    ∧ mapGet ((deleteBranch cexTree 1).toOption.getD cexTree).nodes 2 = none :=
  ⟨rfl, rfl, rfl⟩

/-- Witness for the amended C8 on a two-node tree: deleting the leaf keeps
the root; deleting the root or the current node errors out. -/
theorem deleteBranch_guards_witness :
    (∀ e ∈ (⟨[(0, ⟨0, none, [1], 0, [], [], none, 0, none⟩),
        (1, ⟨1, some 0, [], 0, [], [], none, 0, none⟩)], 0, 0⟩ : StateTree).nodes,
      (0 : Nat) ∉ e.2.childrenIds)
    ∧ ((deleteBranch ⟨[(0, ⟨0, none, [1], 0, [], [], none, 0, none⟩),
        (1, ⟨1, some 0, [], 0, [], [], none, 0, none⟩)], 0, 0⟩ 0).toOption = none
      ∧ (deleteBranch ⟨[(0, ⟨0, none, [1], 0, [], [], none, 0, none⟩),
          (1, ⟨1, some 0, [], 0, [], [], none, 0, none⟩)], 0, 0⟩ 0).toOption = none
      ∧ (deleteBranch ⟨[(0, ⟨0, none, [1], 0, [], [], none, 0, none⟩),
          (1, ⟨1, some 0, [], 0, [], [], none, 0, none⟩)], 0, 0⟩ 1).map
            (fun t => (mapGet t.nodes 0).isSome) ≠ Except.ok false) := by
  refine ⟨by decide, ?_⟩
  exact deleteBranch_guards
    ⟨[(0, ⟨0, none, [1], 0, [], [], none, 0, none⟩),
      (1, ⟨1, some 0, [], 0, [], [], none, 0, none⟩)], 0, 0⟩ 1 (by decide) rfl

/-! ## C4: `solveTriple` fails only by exhausting all orderings -/

theorem dfs_none_iff (catalog : List Piece) :
    ∀ (remaining : List (Nat × Nat)) (board : Nat) (path : List SolutionStep)
      (earlyExit : Bool),
      dfs catalog remaining board path earlyExit = none ↔
        completable catalog board (remaining.map Prod.fst) = false := by
  intro remaining
  induction remaining with
  | nil =>
    intro board path earlyExit
    simp [dfs, completable]
  | cons head rest ih =>
    intro board path earlyExit
    obtain ⟨pieceId, handIndex⟩ := head
    simp only [dfs, completable, List.map_cons, List.findSome?_eq_none_iff,
      List.any_eq_false, Bool.not_eq_true]
    exact forall_congr' (fun p => forall_congr' (fun hp => ih _ _ _))

theorem dfs_none_iff_completable (catalog : List Piece) (pieceOrder handIndices : List Nat)
    (board : Nat) (hlen : pieceOrder.length ≤ handIndices.length)
    (path : List SolutionStep) (earlyExit : Bool) :
    dfs catalog (pieceOrder.zip handIndices) board path earlyExit = none ↔
      completable catalog board pieceOrder = false := by
  rw [dfs_none_iff, List.map_fst_zip _ _ hlen]

/-- C4: for a 3-piece hand, `solveTriple` never raises (it returns an
`ok` value), and it returns `null` exactly when no ordering of the three
pieces admits a complete legal placement sequence; a dead end at some
search depth only backtracks, so failure is reported only after all 6
orderings are exhausted. -/
theorem solveTriple_none_iff (catalog : List Piece) (board : Nat) (hand : List Nat)
    (h3 : hand.length = 3) :
    (solveTriple catalog board hand).toOption.isSome = true
    ∧ (solveTriple catalog board hand = .ok none ↔
        ∀ order ∈ permutations [0, 1, 2],
          completable catalog board (order.map (fun i => hand.getD i 0)) = false) := by
  constructor
  · unfold solveTriple
    rw [if_neg (by omega)]
    rfl
  · unfold solveTriple
    rw [if_neg (by omega)]
    simp only [Except.ok.injEq]
    rw [List.findSome?_eq_none_iff]
    apply forall₂_congr
    intro order _
    rw [← dfs_none_iff_completable catalog (order.map (fun i => hand.getD i 0)) order board
      (by simp) [] true]
    cases hdfs : dfs catalog ((order.map (fun i => hand.getD i 0)).zip order) board [] true <;>
      simp [hdfs]

/-- Witness for C4: one single-cell piece, empty board, hand `[1, 1, 1]`. -/
theorem solveTriple_none_iff_witness :
    ([1, 1, 1] : List Nat).length = 3
    ∧ ((solveTriple [⟨1, 1, 1, [(0, 0)], "c"⟩] 0 [1, 1, 1]).toOption.isSome = true
      ∧ (solveTriple [⟨1, 1, 1, [(0, 0)], "c"⟩] 0 [1, 1, 1] = .ok none ↔
          ∀ order ∈ permutations [0, 1, 2],
            completable [⟨1, 1, 1, [(0, 0)], "c"⟩] 0
              (order.map (fun i => ([1, 1, 1] : List Nat).getD i 0)) = false)) :=
  ⟨rfl, solveTriple_none_iff [⟨1, 1, 1, [(0, 0)], "c"⟩] 0 [1, 1, 1] rfl⟩

/-! ## C10: hand-length guards of the solver entry points -/

/-- C10: with a hand whose length is not exactly 3, `solveTriple`,
`findAllSolutions` and hence `findBestSolution` all throw the
hand-length error, while `solvePartial` accepts any number of remaining
pieces and never throws. -/
theorem solver_hand_length_guard (catalog : List Piece) (board : Nat) (hand : List Nat)
    (maxSolutions : Nat) (h : hand.length ≠ 3) :
    solveTriple catalog board hand = .error "Hand must contain exactly 3 pieces"
    ∧ findAllSolutions catalog board hand maxSolutions =
        .error "Hand must contain exactly 3 pieces"
    ∧ findBestSolution catalog board hand maxSolutions =
        .error "Hand must contain exactly 3 pieces"
    ∧ ∀ remainingPieces handIndices : List Nat,
        ( solvePartial catalog board remainingPieces handIndices).toOption.isSome = true := by
  have hall : findAllSolutions catalog board hand maxSolutions =
      .error "Hand must contain exactly 3 pieces" := by
    unfold findAllSolutions
    rw [if_pos h]
  refine ⟨?_, hall, ?_, ?_⟩
  · unfold solveTriple
    rw [if_pos h]
  · unfold findBestSolution
    rw [hall]
  · intro remainingPieces handIndices
    unfold solvePartial
    split <;> rfl

/-- Witness for C10 with a 2-piece hand. -/
theorem solver_hand_length_guard_witness :
    ([1, 2] : List Nat).length ≠ 3
    ∧ solveTriple [⟨1, 1, 1, [(0, 0)], "c"⟩] 0 [1, 2] =
        .error "Hand must contain exactly 3 pieces"
    ∧ findBestSolution [⟨1, 1, 1, [(0, 0)], "c"⟩] 0 [1, 2] 200 =
        .error "Hand must contain exactly 3 pieces"
    ∧ ( solvePartial [⟨1, 1, 1, [(0, 0)], "c"⟩] 0 [1] [0]).toOption.isSome = true :=
  ⟨by decide,
    (solver_hand_length_guard [⟨1, 1, 1, [(0, 0)], "c"⟩] 0 [1, 2] 200 (by decide)).1,
    (solver_hand_length_guard [⟨1, 1, 1, [(0, 0)], "c"⟩] 0 [1, 2] 200 (by decide)).2.2.1,
    (solver_hand_length_guard [⟨1, 1, 1, [(0, 0)], "c"⟩] 0 [1, 2] 200 (by decide)).2.2.2 [1] [0]⟩

/-! ## C3: `findBestSolution` is first-max-mobility over the capped
enumeration -/

theorem dfsAll_nil (c : List Piece) (m : Nat) (h oF hI : List Nat) (board : Nat)
    (path : List SolutionStep) (sols : List Solution) :
    dfsAll c m h oF hI [] board path sols =
      if sols.length ≥ m then sols else sols ++ [mkAllSolution c h oF hI path] := rfl

theorem dfsAll_cons (c : List Piece) (m : Nat) (h oF hI : List Nat) (pid hidx : Nat)
    (rest : List (Nat × Nat)) (board : Nat) (path : List SolutionStep)
    (sols : List Solution) :
    dfsAll c m h oF hI ((pid, hidx) :: rest) board path sols =
      if sols.length ≥ m then sols
      else
        (getLegalPlacements c board pid).foldl (fun sols p =>
          if sols.length ≥ m then sols
          else
            dfsAll c m h oF hI rest (placePiece board p.mask).newBoard
              (path ++ [mkStep pid hidx p (placePiece board p.mask)]) sols) sols := rfl

theorem solEnum_nil (c : List Piece) (h oF hI : List Nat) (board : Nat)
    (path : List SolutionStep) :
    solEnum c h oF hI [] board path = [mkAllSolution c h oF hI path] := rfl

theorem solEnum_cons (c : List Piece) (h oF hI : List Nat) (pid hidx : Nat)
    (rest : List (Nat × Nat)) (board : Nat) (path : List SolutionStep) :
    solEnum c h oF hI ((pid, hidx) :: rest) board path =
      (getLegalPlacements c board pid).flatMap (fun p =>
        solEnum c h oF hI rest (placePiece board p.mask).newBoard
          (path ++ [mkStep pid hidx p (placePiece board p.mask)])) := rfl

theorem completable_nil (c : List Piece) (board : Nat) :
    completable c board [] = true := rfl

theorem completable_cons (c : List Piece) (board : Nat) (pid : Nat) (rest : List Nat) :
    completable c board (pid :: rest) =
      (getLegalPlacements c board pid).any (fun p =>
        completable c (placePiece board p.mask).newBoard rest) := rfl

theorem take_append_take {α : Type} (l r : List α) :
    ∀ n, ((l.take n) ++ r).take n = (l ++ r).take n := by
  induction l with
  | nil => intro n; simp
  | cons a t ih =>
    intro n
    cases n with
    | zero => simp
    | succ n => simp [List.take_succ_cons, List.cons_append, ih]

theorem dfsAll_eq_take (catalog : List Piece) (maxSolutions : Nat)
    (hand orderFull handIndices : List Nat) :
    ∀ (remaining : List (Nat × Nat)) (board : Nat) (path : List SolutionStep)
      (solutions : List Solution), solutions.length ≤ maxSolutions →
      dfsAll catalog maxSolutions hand orderFull handIndices remaining board path solutions =
        (solutions ++ solEnum catalog hand orderFull handIndices remaining board path).take
          maxSolutions := by
  intro remaining
  induction remaining with
  | nil =>
    intro board path solutions hle
    rw [dfsAll_nil, solEnum_nil]
    by_cases hge : solutions.length ≥ maxSolutions
    · rw [if_pos hge]
      exact (List.take_left' (by omega)).symm
    · rw [if_neg hge]
      exact (List.take_of_length_le (by simp; omega)).symm
  | cons head rest ih =>
    obtain ⟨pieceId, handIndex⟩ := head
    intro board path solutions hle
    rw [dfsAll_cons, solEnum_cons]
    by_cases hge : solutions.length ≥ maxSolutions
    · rw [if_pos hge]
      exact (List.take_left' (by omega)).symm
    · rw [if_neg hge]
      clear hge
      generalize (getLegalPlacements catalog board pieceId) = ps
      revert solutions
      induction ps with
      | nil =>
        intro solutions hle
        simp [List.take_of_length_le hle]
      | cons p ps ihp =>
        intro solutions hle
        rw [List.foldl_cons, List.flatMap_cons]
        by_cases hge2 : solutions.length ≥ maxSolutions
        · rw [if_pos hge2, ihp solutions hle, List.take_left' (by omega),
            List.take_left' (by omega)]
        · rw [if_neg hge2]
          rw [ih _ _ solutions hle]
          rw [ihp _ (by rw [List.length_take]; omega)]
          rw [take_append_take, List.append_assoc]

theorem findAllSolutions_eq (catalog : List Piece) (board : Nat) (hand : List Nat)
    (maxSolutions : Nat) (h3 : hand.length = 3) :
    findAllSolutions catalog board hand maxSolutions =
      .ok ((specSolutions catalog board hand).take maxSolutions) := by
  unfold findAllSolutions
  rw [if_neg (by omega)]
  congr 1
  have general : ∀ (orders : List (List Nat)) (sols : List Solution),
      sols.length ≤ maxSolutions →
      orders.foldl (fun solutions orderIndices =>
        if solutions.length ≥ maxSolutions then solutions
        else
          dfsAll catalog maxSolutions hand (orderIndices.map (fun i => hand.getD i 0))
            orderIndices ((orderIndices.map (fun i => hand.getD i 0)).zip orderIndices)
            board [] solutions) sols =
        (sols ++ orders.flatMap (fun orderIndices =>
          solEnum catalog hand (orderIndices.map (fun i => hand.getD i 0)) orderIndices
            ((orderIndices.map (fun i => hand.getD i 0)).zip orderIndices) board [])).take
          maxSolutions := by
    intro orders
    induction orders with
    | nil =>
      intro sols h
      simp [List.take_of_length_le h]
    | cons o os iho =>
      intro sols h
      rw [List.foldl_cons, List.flatMap_cons]
      by_cases hge : sols.length ≥ maxSolutions
      · rw [if_pos hge, iho sols h, List.take_left' (by omega), List.take_left' (by omega)]
      · rw [if_neg hge]
        rw [dfsAll_eq_take catalog maxSolutions hand _ _ _ _ _ sols h]
        rw [iho _ (by rw [List.length_take]; omega)]
        rw [take_append_take, List.append_assoc]
  have hmain := general (permutations [0, 1, 2]) [] (Nat.zero_le _)
  rw [List.nil_append] at hmain
  exact hmain

theorem head?_orderedInsert (r : Solution → Solution → Prop) [DecidableRel r]
    (a : Solution) (s : List Solution) :
    (List.orderedInsert r a s).head? =
      match s.head? with
      | none => some a
      | some b => if r a b then some a else some b := by
  cases s with
  | nil => rfl
  | cons b t =>
    show (if r a b then a :: b :: t else b :: List.orderedInsert r a t).head? =
      if r a b then some a else some b
    split <;> rfl

theorem head?_sortByMobilityDesc (l : List Solution) :
    (sortByMobilityDesc l).head? = firstMax l := by
  induction l with
  | nil => rfl
  | cons a t ih =>
    show (List.orderedInsert _ a
      (List.insertionSort (fun a b => b.mobility ≤ a.mobility) t)).head? = _
    rw [head?_orderedInsert]
    have ih' : (List.insertionSort (fun a b => b.mobility ≤ a.mobility) t).head? =
        firstMax t := ih
    rw [ih']
    rfl

theorem firstMax_cons_isSome (a : Solution) (t : List Solution) :
    (firstMax (a :: t)).isSome = true := by
  simp only [firstMax]
  cases firstMax t
  · rfl
  · dsimp only
    split <;> rfl

theorem firstMax_eq_none_iff (l : List Solution) : firstMax l = none ↔ l = [] := by
  cases l with
  | nil => simp [firstMax]
  | cons a t =>
    constructor
    · intro h
      have hsome := firstMax_cons_isSome a t
      rw [h] at hsome
      exact Bool.noConfusion hsome
    · intro h
      exact List.noConfusion h

theorem firstMax_mem_max (l : List Solution) :
    ∀ s, firstMax l = some s → s ∈ l ∧ ∀ t ∈ l, t.mobility ≤ s.mobility := by
  induction l with
  | nil => intro s h; exact Option.noConfusion h
  | cons a t ih =>
    intro s h
    simp only [firstMax] at h
    cases hft : firstMax t with
    | none =>
      rw [hft] at h
      have hs := (Option.some.inj h).symm
      have ht := (firstMax_eq_none_iff t).mp hft
      subst ht
      refine ⟨hs ▸ List.mem_cons_self _ _, ?_⟩
      intro u hu
      rcases List.mem_cons.mp hu with h' | h'
      · rw [h', hs]
      · exact absurd h' (List.not_mem_nil u)
    | some b =>
      rw [hft] at h
      dsimp only at h
      obtain ⟨hbmem, hbmax⟩ := ih b hft
      by_cases hle : b.mobility ≤ a.mobility
      · rw [if_pos hle] at h
        have hs := Option.some.inj h
        subst hs
        refine ⟨List.mem_cons_self _ _, ?_⟩
        intro u hu
        rcases List.mem_cons.mp hu with h' | h'
        · rw [h']
        · exact le_trans (hbmax u h') hle
      · rw [if_neg hle] at h
        have hs := Option.some.inj h
        subst hs
        refine ⟨List.mem_cons_of_mem _ hbmem, ?_⟩
        intro u hu
        rcases List.mem_cons.mp hu with h' | h'
        · rw [h']
          omega
        · exact hbmax u h'

theorem findBestSolution_eq (catalog : List Piece) (board : Nat) (hand : List Nat)
    (maxSolutions : Nat) (h3 : hand.length = 3) :
    findBestSolution catalog board hand maxSolutions =
      .ok (firstMax ((specSolutions catalog board hand).take maxSolutions)) := by
  unfold findBestSolution
  rw [findAllSolutions_eq catalog board hand maxSolutions h3]
  dsimp only
  by_cases hz : ((specSolutions catalog board hand).take maxSolutions).length = 0
  · rw [if_pos hz, List.length_eq_zero.mp hz]
    rfl
  · rw [if_neg hz, head?_sortByMobilityDesc]

theorem solEnum_eq_nil_iff (catalog : List Piece) (hand oF hI : List Nat) :
    ∀ (remaining : List (Nat × Nat)) (board : Nat) (path : List SolutionStep),
      solEnum catalog hand oF hI remaining board path = [] ↔
        completable catalog board (remaining.map Prod.fst) = false := by
  intro remaining
  induction remaining with
  | nil =>
    intro board path
    rw [solEnum_nil]
    simp [completable_nil]
  | cons head rest ih =>
    obtain ⟨pid, hidx⟩ := head
    intro board path
    rw [solEnum_cons, List.flatMap_eq_nil_iff, List.map_cons, completable_cons,
      List.any_eq_false]
    apply forall₂_congr
    intro p hp
    rw [ih]
    simp

theorem specSolutions_eq_nil_iff (catalog : List Piece) (board : Nat) (hand : List Nat) :
    specSolutions catalog board hand = [] ↔
      ∀ order ∈ permutations [0, 1, 2],
        completable catalog board (order.map (fun i => hand.getD i 0)) = false := by
  simp only [specSolutions]
  rw [List.flatMap_eq_nil_iff]
  apply forall₂_congr
  intro order _
  rw [solEnum_eq_nil_iff, List.map_fst_zip _ _ (by simp)]

/-- C3: for a 3-piece hand and a positive cap, `findAllSolutions` returns
exactly the first `maxSolutions` complete solutions of the uncapped
ordering-then-anchor enumeration; `findBestSolution` returns the first
collected solution of maximum final-board mobility (ties go to the one
discovered first); and it returns `null` exactly when no complete solution
exists. -/
theorem findBestSolution_spec (catalog : List Piece) (board : Nat) (hand : List Nat)
    (maxSolutions : Nat) (h3 : hand.length = 3) (hpos : 0 < maxSolutions) :
    findAllSolutions catalog board hand maxSolutions =
      .ok ((specSolutions catalog board hand).take maxSolutions)
    ∧ findBestSolution catalog board hand maxSolutions =
      .ok (firstMax ((specSolutions catalog board hand).take maxSolutions))
    ∧ (∀ s, firstMax ((specSolutions catalog board hand).take maxSolutions) = some s →
        s ∈ (specSolutions catalog board hand).take maxSolutions ∧
          ∀ t ∈ (specSolutions catalog board hand).take maxSolutions,
            t.mobility ≤ s.mobility)
    ∧ (findBestSolution catalog board hand maxSolutions = .ok none ↔
        ∀ order ∈ permutations [0, 1, 2],
          completable catalog board (order.map (fun i => hand.getD i 0)) = false) := by
  refine ⟨findAllSolutions_eq catalog board hand maxSolutions h3,
    findBestSolution_eq catalog board hand maxSolutions h3,
    fun s => firstMax_mem_max _ s, ?_⟩
  rw [findBestSolution_eq catalog board hand maxSolutions h3]
  simp only [Except.ok.injEq]
  rw [firstMax_eq_none_iff, List.take_eq_nil_iff, ← specSolutions_eq_nil_iff]
  constructor
  · intro h
    rcases h with h | h
    · omega
    · exact h
  · intro h
    exact Or.inr h

/-- Witness for C3: one single-cell piece, empty board, `[1, 1, 1]`, the
default cap 200. -/
theorem findBestSolution_spec_witness :
    ([1, 1, 1] : List Nat).length = 3 ∧ 0 < 200
    ∧ findBestSolution [⟨1, 1, 1, [(0, 0)], "c"⟩] 0 [1, 1, 1] 200 =
      .ok (firstMax ((specSolutions [⟨1, 1, 1, [(0, 0)], "c"⟩] 0 [1, 1, 1]).take 200)) :=
  ⟨rfl, by decide,
    (findBestSolution_spec [⟨1, 1, 1, [(0, 0)], "c"⟩] 0 [1, 1, 1] 200 rfl (by decide)).2.1⟩

end BlockPuzzle
